import Mathlib

/-!
# Verification of the ai-file-naming core pipeline

Shallow embedding of the cost-aware naming pipeline of the `ai-file-naming`
repository: `BatchGrouper` (pattern extraction and application, file
grouping), `MetadataExtractor.calculateConfidence`, `SmartPipeline`
(`processFile`, `processBatch`, `tryCheapModel`, `getStats`),
`AIProvider.executeWithRetry` and `FileNamingSDK.getCacheKey`.

JavaScript numbers are modelled as rationals (`ℚ`); the one place where the
code can produce `NaN` (a `0/0` division in `getStats`) is modelled with an
`Option ℚ` whose `none` stands for `NaN`.  Filesystem and provider effects
are modelled as explicit oracle functions passed in as arguments.
-/

/-! ## String machinery shared by the embeddings

The TypeScript code uses `String.prototype.match`, `replace` (first
occurrence, string pattern) and `includes`.  We model strings as their
character lists and define occurrence counting, occurrence testing and
first-occurrence replacement directly.
-/

/-- Number of positions of `l` at which `pat` occurs (as a contiguous
sublist starting at that position). -/
def countSub (pat : List Char) : List Char → Nat
  | [] => 0
  | c :: rest => (if pat.isPrefixOf (c :: rest) then 1 else 0) + countSub pat rest

/-- JavaScript `String.prototype.includes`: does `pat` occur in `l`? -/
def hasSub (pat : List Char) : List Char → Bool
  | [] => pat.isEmpty
  | c :: rest => pat.isPrefixOf (c :: rest) || hasSub pat rest

/-- JavaScript `String.prototype.replace` with a string pattern: replace the
leftmost occurrence of `pat` by `repl`; identity when `pat` does not occur. -/
def replaceFirstCS (pat repl : List Char) : List Char → List Char
  | [] => []
  | c :: rest =>
    if pat.isPrefixOf (c :: rest) then repl ++ (c :: rest).drop pat.length
    else c :: replaceFirstCS pat repl rest

/-! ## BatchGrouper: `extractPattern` and `applyPattern`

From `src/core/BatchGrouper.ts`.  `extractPattern` first looks for a
trailing run of at least three digits (`/(\d{3,})$/`), then for an embedded
underscore-separated date (`/(\d{4}_\d{2}_\d{2})/`), and otherwise appends
`_[n]`.  `applyPattern` substitutes `[n]` by the zero-padded ordinal
`fileIndex + 2` and `[date]` by a date parsed from the sibling's original
name with `/(\d{4})[-_]?(\d{2})[-_]?(\d{2})/`, falling back to the current
date (passed here as the explicit argument `nowDateStr`).
-/

/-- Length of the maximal run of decimal digits at the end of the list: the
string captured by the anchored regex `/(\d{3,})$/` when that length is at
least 3. -/
def trailingDigitsLen (cs : List Char) : Nat :=
  (cs.reverse.takeWhile Char.isDigit).length

/-- Does `/\d{4}_\d{2}_\d{2}/` match at the head of the character list? -/
def isDatePatU : List Char → Bool
  | y1 :: y2 :: y3 :: y4 :: s1 :: m1 :: m2 :: s2 :: d1 :: d2 :: _ =>
    y1.isDigit && y2.isDigit && y3.isDigit && y4.isDigit && s1 == '_' &&
    m1.isDigit && m2.isDigit && s2 == '_' && d1.isDigit && d2.isDigit
  | _ => false

/-- Index of the leftmost match of `/\d{4}_\d{2}_\d{2}/`, if any — the
match found by `generatedName.match(/(\d{4}_\d{2}_\d{2})/)`. -/
def findDateIdx : List Char → Option Nat
  | [] => none
  | c :: rest =>
    if isDatePatU (c :: rest) then some 0
    else (findDateIdx rest).map (· + 1)

/-- The `[n]` placeholder as a character list. -/
def nPlaceholder : List Char := ['[', 'n', ']']

/-- The `[date]` placeholder as a character list. -/
def datePlaceholder : List Char := ['[', 'd', 'a', 't', 'e', ']']

/-- `BatchGrouper.extractPattern` over the character list. -/
def extractPatternCore (cs : List Char) : List Char :=
  if cs = [] then nPlaceholder
  else if 3 ≤ trailingDigitsLen cs then
    cs.take (cs.length - trailingDigitsLen cs) ++ nPlaceholder
  else
    match findDateIdx cs with
    | some i => cs.take i ++ datePlaceholder ++ cs.drop (i + 10)
    | none => cs ++ '_' :: nPlaceholder

/-- `BatchGrouper.extractPattern`.  The TypeScript signature accepts
`string | undefined`; `undefined` and the empty string are both falsy and
yield `"[n]"`, so the `undefined` case is folded into `""` by callers. -/
def extractPattern (generatedName : String) : String :=
  String.mk (extractPatternCore generatedName.data)

/-- The character `'0' + d` for a digit value `d < 10`. -/
def digitChar (d : Nat) : Char := Char.ofNat (48 + d)

/-- Decimal digits of `n`, most significant first, with explicit fuel (any
fuel above the digit count gives the decimal numeral; `natChars` supplies
enough). -/
def natCharsAux : Nat → Nat → List Char
  | 0, _ => []
  | fuel + 1, n =>
    if n < 10 then [digitChar n]
    else natCharsAux fuel (n / 10) ++ [digitChar (n % 10)]

/-- JavaScript `String(n)` for a nonnegative integer: the decimal numeral. -/
def natChars (n : Nat) : List Char := natCharsAux (n + 1) n

/-- JavaScript `String(n).padStart(3, '0')`. -/
def pad3chars (n : Nat) : List Char :=
  let s := natChars n
  if s.length < 3 then List.replicate (3 - s.length) '0' ++ s else s

/-- Skip one leading `-` or `_`, modelling the optional separator `[-_]?`
followed by a mandatory digit in the flexible date regex. -/
def skipSep : List Char → List Char
  | [] => []
  | c :: rest => if c = '-' || c = '_' then rest else c :: rest

/-- Does `/(\d{4})[-_]?(\d{2})[-_]?(\d{2})/` match at the head of the list;
if so return the three captured digit groups. -/
def flexDateAt : List Char → Option (List Char × List Char × List Char)
  | y1 :: y2 :: y3 :: y4 :: rest =>
    if y1.isDigit && y2.isDigit && y3.isDigit && y4.isDigit then
      match skipSep rest with
      | m1 :: m2 :: rest2 =>
        if m1.isDigit && m2.isDigit then
          match skipSep rest2 with
          | d1 :: d2 :: _ =>
            if d1.isDigit && d2.isDigit then
              some ([y1, y2, y3, y4], [m1, m2], [d1, d2])
            else none
          | _ => none
        else none
      | _ => none
    else none
  | _ => none

/-- Leftmost match of the flexible date regex over the whole list. -/
def findFlexDate : List Char → Option (List Char × List Char × List Char)
  | [] => none
  | c :: rest =>
    match flexDateAt (c :: rest) with
    | some r => some r
    | none => findFlexDate rest

/-- The first statement of `applyPattern`: replace `[n]` (when present) by
the zero-padded ordinal `fileIndex + 2`. -/
def applyNStep (pattern : List Char) (fileIndex : Nat) : List Char :=
  if hasSub nPlaceholder pattern then
    replaceFirstCS nPlaceholder (pad3chars (fileIndex + 2)) pattern
  else pattern

/-- The second statement of `applyPattern`: replace `[date]` (when present
and the original name is truthy) by a date parsed from the original name,
falling back to the current date. -/
def applyDateStep (r1 : List Char) (originalName nowDate : List Char) : List Char :=
  if hasSub datePlaceholder r1 = true ∧ originalName ≠ [] then
    match findFlexDate originalName with
    | some (y, m, d) =>
      replaceFirstCS datePlaceholder (y ++ '_' :: m ++ '_' :: d) r1
    | none => replaceFirstCS datePlaceholder nowDate r1
  else r1

/-- `BatchGrouper.applyPattern` over character lists: the two replacement
statements in sequence. -/
def applyPatternCore (pattern : List Char) (fileIndex : Nat)
    (originalName : List Char) (nowDate : List Char) : List Char :=
  applyDateStep (applyNStep pattern fileIndex) originalName nowDate

/-- `BatchGrouper.applyPattern`.  `originalName` is the sibling's original
base name (the TypeScript optional parameter; absence and the empty string
are both falsy).  `nowDateStr` is the formatted current date the code falls
back to when the original name carries no date. -/
def applyPattern (pattern : String) (fileIndex : Nat) (originalName : String)
    (nowDateStr : String) : String :=
  String.mk (applyPatternCore pattern.data fileIndex originalName.data nowDateStr.data)

/-- Split a character list at every occurrence of `sep`, keeping empty
pieces — JavaScript `String.prototype.split` with a one-character
separator. -/
def splitOnChar (sep : Char) : List Char → List (List Char)
  | [] => [[]]
  | c :: rest =>
    let r := splitOnChar sep rest
    if c = sep then [] :: r
    else
      match r with
      | [] => [[c]]
      | h :: t => (c :: h) :: t

/-- Last element of a list of character lists, `[]` when empty. -/
def lastPieceD : List (List Char) → List Char
  | [] => []
  | [x] => x
  | _ :: y :: t => lastPieceD (y :: t)

/-- JavaScript `s.split('/').pop() || ''`: the last `/`-separated component
of a path. -/
def lastComponent (s : String) : String :=
  String.mk (lastPieceD (splitOnChar '/' s.data))

example : extractPattern "beach_sunset_001" = "beach_sunset_[n]" := by decide
example : extractPattern "trip_2023_05_10_x" = "trip_[date]_x" := by decide
example : extractPattern "photo-2023-05-10" = "photo-2023-05-10_[n]" := by decide
example : extractPattern "" = "[n]" := by decide
example : extractPattern "[n]" = "[n]_[n]" := by decide
example : extractPattern "a[n]123" = "a[n][n]" := by decide
example : applyPattern "beach_sunset_[n]" 0 "IMG_002.jpg" "2025_01_01" = "beach_sunset_002" := by decide
example : applyPattern "a[n][n]" 0 "x" "2025_01_01" = "a002[n]" := by decide
example : applyPattern "trip_[date]" 0 "IMG_2022-03-04.jpg" "2025_01_01" = "trip_2022_03_04" := by decide
example : applyPattern "trip_[date]" 0 "IMGx.jpg" "2025_01_01" = "trip_2025_01_01" := by decide
example : lastComponent "a/b/c.jpg" = "c.jpg" := by decide
example : pad3chars 7 = ['0', '0', '7'] := by decide
example : pad3chars 1234 = ['1', '2', '3', '4'] := by decide

/-! ## MetadataExtractor: confidence scoring

From `src/analyzers/MetadataExtractor.ts`.  Only the fields that
`calculateConfidence` inspects are modelled: presence of an EXIF date and
of EXIF GPS coordinates, and the booleans of `detectPatterns`.  The
optional-chaining accesses (`metadata.exif?.gps` …) read `false` when the
whole `exif` / `patterns` object is absent.
-/

/-- The EXIF fields inspected by `calculateConfidence`: presence of
`dateTime` and of `gps`. -/
structure ExifData where
  hasDateTime : Bool
  hasGps : Bool
deriving DecidableEq, Repr

/-- The booleans produced by `MetadataExtractor.detectPatterns`. -/
structure NamePatterns where
  hasSequenceNumber : Bool
  hasDatePattern : Bool
  hasDescriptiveText : Bool
  isScreenshot : Bool
  isDownload : Bool
deriving DecidableEq, Repr

/-- The slice of `RichMetadata` that `calculateConfidence` reads. -/
structure RichMetadata where
  exif : Option ExifData
  patterns : Option NamePatterns
deriving DecidableEq, Repr

/-- `metadata.patterns?.isScreenshot` under JavaScript optional chaining. -/
def patIsScreenshot (m : RichMetadata) : Bool :=
  (m.patterns.map (·.isScreenshot)).getD false

/-- `metadata.patterns?.hasDatePattern`. -/
def patHasDate (m : RichMetadata) : Bool :=
  (m.patterns.map (·.hasDatePattern)).getD false

/-- `metadata.patterns?.hasDescriptiveText`. -/
def patHasDescriptive (m : RichMetadata) : Bool :=
  (m.patterns.map (·.hasDescriptiveText)).getD false

/-- `metadata.exif?.dateTime` truthiness. -/
def exifHasDate (m : RichMetadata) : Bool :=
  (m.exif.map (·.hasDateTime)).getD false

/-- `metadata.exif?.gps` truthiness. -/
def exifHasGps (m : RichMetadata) : Bool :=
  (m.exif.map (·.hasGps)).getD false

/-- `MetadataExtractor.calculateConfidence`. -/
def calculateConfidence (m : RichMetadata) : ℚ :=
  if patIsScreenshot m && patHasDate m then 95/100
  else if exifHasGps m && exifHasDate m then 9/10
  else if exifHasDate m && patHasDescriptive m then 8/10
  else if exifHasDate m then 65/100
  else if patHasDescriptive m && patHasDate m then 6/10
  else if patHasDescriptive m then 1/2
  else 3/10

/-- Modelled from the spec's words (§4.1 and the claim): priority-ordered
rules, first match wins — used as the specification side of the refinement
for the confidence table. -/
def calcConfidenceSpec (m : RichMetadata) : ℚ :=
  if patIsScreenshot m = true ∧ patHasDate m = true then 95/100
  else if exifHasGps m = true ∧ exifHasDate m = true then 9/10
  else if exifHasDate m = true ∧ patHasDescriptive m = true then 8/10
  else if exifHasDate m = true then 65/100
  else if patHasDescriptive m = true ∧ patHasDate m = true then 6/10
  else if patHasDescriptive m = true then 1/2
  else 3/10

/-! ## SmartPipeline: data model and per-file stages

From `src/core/SmartPipeline.ts`.  Filesystem and provider effects are
oracles: `metaOracle` stands for `MetadataExtractor.canNameFromMetadata`
(`none` models the `catch` branch of `tryMetadataOnly`), `provider` for
`provider.generateName`.
-/

/-- The per-stage confidence thresholds of `PipelineConfig`. -/
structure ConfidenceThresholds where
  metadata : ℚ
  cheapModel : ℚ
deriving DecidableEq, Repr

/-- `PipelineConfig`. -/
structure PipelineConfig where
  strategy : String
  enableMetadataStage : Bool
  enableCheapModelStage : Bool
  maxTokensPerFile : Nat
  confidenceThresholds : ConfidenceThresholds
deriving DecidableEq, Repr

/-- `MetadataScore` as returned by `canNameFromMetadata`. -/
structure MetadataScore where
  confidence : ℚ
  suggestedName : String
  reasoning : String
deriving DecidableEq, Repr

/-- A provider's `generateName` response (the fields the pipeline reads). -/
structure ProviderResponse where
  suggestedName : String
  confidence : ℚ
deriving DecidableEq, Repr

/-- `PipelineResult`. -/
structure PipelineResult where
  originalName : String
  suggestedName : Option String
  confidence : ℚ
  stage : String
  tokensUsed : Nat
  cost : ℚ
  reasoning : Option String
deriving DecidableEq, Repr

/-- `SmartPipeline.calculateCost`: tokens × per-model price (per token),
with the `gpt-5-mini` price as the fallback for unknown models. -/
def calculateCost (tokens : Nat) (model : String) : ℚ :=
  let price : ℚ :=
    if model = "gpt-5" then (125/100) / 1000000
    else if model = "gpt-5-mini" then (25/100) / 1000000
    else if model = "gpt-5-nano" then (5/100) / 1000000
    else if model = "gpt-4o" then (250/100) / 1000000
    else (25/100) / 1000000
  tokens * price

/-- `SmartPipeline.tryMetadataOnly`: forward the extractor's score when its
confidence reaches the metadata threshold, `null` otherwise (and `null` on
any thrown error, which the `none` of the oracle models). -/
def tryMetadataOnly (cfg : PipelineConfig)
    (metaOracle : String → Option MetadataScore) (filePath : String) :
    Option MetadataScore :=
  match metaOracle filePath with
  | none => none
  | some r =>
    if cfg.confidenceThresholds.metadata ≤ r.confidence then some r else none

/-- `SmartPipeline.tryCheapModel`: the stage body is commented out and the
method returns `null` unconditionally (its `catch` also returns `null`). -/
def tryCheapModel (_filePath : String) : Option PipelineResult :=
  none

/-- `SmartPipeline.tryPremiumModel`: one provider call, fixed 200-token
estimate, `gpt-5` pricing. -/
def tryPremiumModel (provider : String → ProviderResponse) (filePath : String) :
    PipelineResult :=
  let resp := provider filePath
  { originalName := filePath, suggestedName := some resp.suggestedName,
    confidence := resp.confidence, stage := "premium-model",
    tokensUsed := 200, cost := calculateCost 200 "gpt-5", reasoning := none }

/-- Stages 1–2 of `processFile` (everything after the metadata stage). -/
def laterStages (cfg : PipelineConfig) (provider : String → ProviderResponse)
    (filePath : String) : PipelineResult :=
  match (if cfg.enableCheapModelStage then tryCheapModel filePath else none) with
  | some c =>
    if cfg.confidenceThresholds.cheapModel ≤ c.confidence then c
    else tryPremiumModel provider filePath
  | none => tryPremiumModel provider filePath

/-- `SmartPipeline.processFile`. -/
def processFile (cfg : PipelineConfig)
    (metaOracle : String → Option MetadataScore)
    (provider : String → ProviderResponse) (filePath : String) : PipelineResult :=
  match (if cfg.enableMetadataStage then tryMetadataOnly cfg metaOracle filePath else none) with
  | some m =>
    if cfg.confidenceThresholds.metadata ≤ m.confidence then
      { originalName := filePath, suggestedName := some m.suggestedName,
        confidence := m.confidence, stage := "metadata",
        tokensUsed := 0, cost := 0, reasoning := some m.reasoning }
    else laterStages cfg provider filePath
  | none => laterStages cfg provider filePath

/-! ## BatchGrouper.group and SmartPipeline.processBatch

`group` buckets files by a key computed from filesystem metadata (type
class, size range, directory, same-day date); the key computation is the
oracle `keyFn`.  A JavaScript `Map` preserves key insertion order and the
code appends each file to its bucket, which the association list
`insertBucket` reproduces.  `processBatch` is modelled together with the
list of file paths on which it invokes `processFile` (second component),
so that "no provider call is made for a sibling" is the sibling's absence
from that log.
-/

/-- `FileGroup` (the fields the pipeline reads). -/
structure FileGroup where
  representative : String
  similar : List String
deriving DecidableEq, Repr

/-- Append `f` to the bucket keyed `k`, creating the bucket at the end on
first sight of the key — the `buckets.get(key) || []; bucket.push(...)`
idiom over an insertion-ordered map. -/
def insertBucket : List (String × List String) → String → String → List (String × List String)
  | [], k, f => [(k, [f])]
  | (k', fs) :: rest, k, f =>
    if k' = k then (k', fs ++ [f]) :: rest
    else (k', fs) :: insertBucket rest k f

/-- `BatchGrouper.group`: bucket by key, first file of each bucket becomes
the representative, the rest its siblings. -/
def groupFiles (keyFn : String → String) (files : List String) : List FileGroup :=
  if files = [] then []
  else
    let buckets := files.foldl (fun b f => insertBucket b (keyFn f) f) []
    buckets.filterMap fun kv =>
      match kv.2 with
      | [] => none
      | rep :: rest => some { representative := rep, similar := rest }

/-- The sibling loop of the pattern branch of `processBatch`: index `i`
advances for every sibling, a falsy (empty) path is skipped (`continue`),
every other sibling receives the pattern-derived name at confidence
`representative × 0.95`, stage `batch-pattern`, 20 tokens. -/
def patternSiblings (pattern : String) (repConfidence : ℚ) (nowDateStr : String) :
    List String → Nat → List PipelineResult
  | [], _ => []
  | f :: rest, i =>
    if f = "" then patternSiblings pattern repConfidence nowDateStr rest (i + 1)
    else
      { originalName := f,
        suggestedName := some (applyPattern pattern i (lastComponent f) nowDateStr),
        confidence := repConfidence * (95/100),
        stage := "batch-pattern", tokensUsed := 20,
        cost := calculateCost 20 "gpt-5-mini", reasoning := none } ::
      patternSiblings pattern repConfidence nowDateStr rest (i + 1)

/-- One iteration of the group loop of `processBatch`: the results it
appends, paired with the file paths it runs through `processFile`. -/
def processGroup (cfg : PipelineConfig)
    (metaOracle : String → Option MetadataScore)
    (provider : String → ProviderResponse) (nowDateStr : String)
    (g : FileGroup) : List PipelineResult × List String :=
  let rep := processFile cfg metaOracle provider g.representative
  if 0 < g.similar.length ∧ rep.confidence > 7/10 then
    let pattern := extractPattern (rep.suggestedName.getD "")
    (rep :: patternSiblings pattern rep.confidence nowDateStr g.similar 0,
     [g.representative])
  else
    (rep :: g.similar.map (processFile cfg metaOracle provider),
     g.representative :: g.similar)

/-- `SmartPipeline.processBatch`: group, then concatenate the per-group
results in group order; the second component logs every `processFile`
invocation in order. -/
def processBatch (cfg : PipelineConfig)
    (metaOracle : String → Option MetadataScore)
    (provider : String → ProviderResponse) (keyFn : String → String)
    (nowDateStr : String) (files : List String) :
    List PipelineResult × List String :=
  let groups := groupFiles keyFn files
  ((groups.map fun g => (processGroup cfg metaOracle provider nowDateStr g).1).flatten,
   (groups.map fun g => (processGroup cfg metaOracle provider nowDateStr g).2).flatten)

/-! ## SmartPipeline.getStats

The only division in the pipeline.  `averageConfidence` is
`sum / results.length`; on an empty result list this is JavaScript's
`0 / 0 = NaN`, modelled as `none`.
-/

/-- JavaScript division as used in `getStats`: `none` models the `NaN`
produced by `0 / 0` (the numerator is `0` whenever the denominator is). -/
def jsDiv (a b : ℚ) : Option ℚ :=
  if b = 0 then none else some (a / b)

/-- The record returned by `SmartPipeline.getStats`. -/
structure PipelineStats where
  total : Nat
  stageMetadata : Nat
  stageCheapModel : Nat
  stagePremiumModel : Nat
  stageBatchPattern : Nat
  totalTokens : Nat
  totalCost : ℚ
  averageConfidence : Option ℚ
deriving DecidableEq, Repr

/-- `SmartPipeline.getStats`. -/
def getStats (results : List PipelineResult) : PipelineStats :=
  { total := results.length,
    stageMetadata := results.countP (·.stage == "metadata"),
    stageCheapModel := results.countP (·.stage == "cheap-model"),
    stagePremiumModel := results.countP (·.stage == "premium-model"),
    stageBatchPattern := results.countP (·.stage == "batch-pattern"),
    totalTokens := (results.map (·.tokensUsed)).sum,
    totalCost := (results.map (·.cost)).sum,
    averageConfidence := jsDiv ((results.map (·.confidence)).sum) results.length }

/-! ## AIProvider.executeWithRetry

From `src/providers/base/AIProvider.ts`.  The `k`-th invocation of the
wrapped operation is `fn k` (`k = 0` first); `retryable` is the
classification `handleError(error).retryable`; `jitterFrac k` is the value
of `Math.random() * 0.3` drawn before the `k`-th wait.  The function
returns the outcome, the number of invocations, and the list of waits (in
milliseconds, as exact rationals).  The loop `while (attempt <= maxRetries)`
is driven by fuel `maxRetries + 1 - attempt`; the fuel-0 case is the
unreachable `throw lastError ?? new Error('Max retries exceeded')` after
the loop, with `sentinel` standing for that fresh error.
-/

/-- The exponential backoff delay of the code:
`Math.min(1000 * 2^(attempt-1), 10000)`. -/
def retryDelay (attempt : Nat) : ℚ :=
  min ((1000 : ℚ) * 2 ^ (attempt - 1)) 10000

/-- The retry loop body of `executeWithRetry`. -/
def retryGo {E A : Type} (fn : Nat → Except E A) (retryable : E → Bool)
    (jitterFrac : Nat → ℚ) (maxRetries : Nat) (sentinel : E) :
    Nat → Nat → Option E → Except E A × Nat × List ℚ
  | 0, _, lastErr => (Except.error (lastErr.getD sentinel), 0, [])
  | fuel + 1, attempt, _ =>
    match fn attempt with
    | Except.ok a => (Except.ok a, 1, [])
    | Except.error e =>
      if retryable e = false ∨ maxRetries < attempt + 1 then
        (Except.error e, 1, [])
      else
        let delay := retryDelay (attempt + 1)
        let wait := delay + jitterFrac (attempt + 1) * delay
        let r := retryGo fn retryable jitterFrac maxRetries sentinel fuel (attempt + 1) (some e)
        (r.1, r.2.1 + 1, wait :: r.2.2)

/-- `AIProvider.executeWithRetry` (default `maxRetries = 3` at call sites
that omit the argument). -/
def executeWithRetry {E A : Type} (fn : Nat → Except E A) (retryable : E → Bool)
    (jitterFrac : Nat → ℚ) (maxRetries : Nat) (sentinel : E) :
    Except E A × Nat × List ℚ :=
  retryGo fn retryable jitterFrac maxRetries sentinel (maxRetries + 1) 0 none

/-! ## FileNamingSDK.getCacheKey

From the SDK class (`src/unnamed/part_005`) together with
`FileUtils.getFileHash`: the key is the hex SHA-256 digest of the entire
file contents, a dash, and the JSON-serialized options.  The digest
function itself is abstracted as `hashFn` over the byte list; what matters
for the claims is that the key factors through the full contents and
through nothing else of the file.
-/

/-- A file as the cache-key computation sees it: full byte contents plus
the stat metadata (size, modification time) the key is claimed to use. -/
structure StoredFile where
  content : List Nat
  size : Nat
  mtime : Int
deriving DecidableEq, Repr

/-- `FileNamingSDK.getCacheKey`: `` `${hash}-${optionsStr}` `` where
`hash = FileUtils.getFileHash(filePath)` digests the entire contents. -/
def getCacheKey (hashFn : List Nat → String) (file : StoredFile)
    (optionsStr : String) : String :=
  hashFn file.content ++ "-" ++ optionsStr

/-- The `balanced` preset of `SmartPipeline.buildConfig`. -/
def balancedConfig : PipelineConfig :=
  ⟨"balanced", true, true, 150, ⟨8/10, 7/10⟩⟩

/-- The `aggressive` preset of `SmartPipeline.buildConfig`. -/
def aggressiveConfig : PipelineConfig :=
  ⟨"aggressive", true, true, 50, ⟨7/10, 6/10⟩⟩

/-- The `quality` preset of `SmartPipeline.buildConfig`. -/
def qualityConfig : PipelineConfig :=
  ⟨"quality", false, false, 500, ⟨95/100, 9/10⟩⟩

example :
    processFile balancedConfig (fun _ => none)
      (fun _ => (⟨"nm", 7/10⟩ : ProviderResponse)) "a"
    = ⟨"a", some "nm", 7/10, "premium-model", 200, 1/4000, none⟩ := by
  simp [processFile, balancedConfig, tryMetadataOnly, laterStages, tryCheapModel,
    tryPremiumModel, calculateCost]
  norm_num

/-! ## Helper lemmas: occurrence counting and first-occurrence replacement -/

theorem countSub_le_count (c0 : Char) (rest : List Char) :
    ∀ l : List Char, countSub (c0 :: rest) l ≤ l.count c0 := by
  intro l
  induction l with
  | nil => simp [countSub]
  | cons c t ih =>
    rw [countSub, List.count_cons]
    by_cases h : ((c0 :: rest).isPrefixOf (c :: t) : Bool) = true
    · have hc : c0 = c ∧ rest <+: t :=
        List.cons_prefix_cons.mp (List.isPrefixOf_iff_prefix.mp h)
      rw [if_pos h]
      have : (c == c0) = true := by simp [hc.1.symm]
      rw [this]
      simp
      omega
    · rw [if_neg h]
      have : countSub (c0 :: rest) t ≤ t.count c0 := ih
      omega

theorem hasSub_eq_false_of_count {c0 : Char} {rest : List Char} :
    ∀ {l : List Char}, l.count c0 = 0 → hasSub (c0 :: rest) l = false := by
  intro l
  induction l with
  | nil => intro _; simp [hasSub]
  | cons c t ih =>
    intro h
    rw [List.count_cons] at h
    have hc : ¬ (c == c0) = true := by
      intro hcc
      simp [hcc] at h
    have ht : t.count c0 = 0 := by
      by_cases hcc : (c == c0) = true
      · exact absurd hcc hc
      · simp [hcc] at h; omega
    rw [hasSub]
    have hp : ¬ ((c0 :: rest).isPrefixOf (c :: t) : Bool) = true := by
      intro hpp
      have := (List.cons_prefix_cons.mp (List.isPrefixOf_iff_prefix.mp hpp)).1
      simp [this] at hc
    simp only [Bool.or_eq_false_iff]
    constructor
    · exact Bool.eq_false_iff.mpr (fun hx => hp hx)
    · exact ih ht

theorem hasSub_append_self (pat : List Char) :
    ∀ (xs ys : List Char), hasSub pat (xs ++ pat ++ ys) = true := by
  intro xs
  induction xs with
  | nil =>
    intro ys
    cases pat with
    | nil => cases ys <;> simp [hasSub]
    | cons p ps =>
      rw [List.nil_append, List.cons_append, hasSub]
      have : ((p :: ps).isPrefixOf (p :: (ps ++ ys)) : Bool) = true := by
        rw [List.isPrefixOf_iff_prefix]
        exact (List.cons_prefix_cons).mpr ⟨rfl, List.prefix_append ps ys⟩
      simp [this]
  | cons x t ih =>
    intro ys
    rw [List.cons_append, List.cons_append, hasSub]
    rw [ih ys]
    simp

theorem replaceFirst_append_left {c0 : Char} {rest repl : List Char} :
    ∀ {xs : List Char}, xs.count c0 = 0 → ∀ ys,
      replaceFirstCS (c0 :: rest) repl (xs ++ ys) = xs ++ replaceFirstCS (c0 :: rest) repl ys := by
  intro xs
  induction xs with
  | nil => intro _ ys; simp
  | cons x t ih =>
    intro h ys
    rw [List.count_cons] at h
    have hx : ¬ (x == c0) = true := fun hcc => by simp [hcc] at h
    have ht : t.count c0 = 0 := by
      by_cases hcc : (x == c0) = true
      · exact absurd hcc hx
      · simp [hcc] at h; omega
    rw [List.cons_append, replaceFirstCS]
    have hp : ¬ ((c0 :: rest).isPrefixOf (x :: (t ++ ys)) : Bool) = true := by
      intro hpp
      have := (List.cons_prefix_cons.mp (List.isPrefixOf_iff_prefix.mp hpp)).1
      simp [this] at hx
    rw [if_neg hp, ih ht ys]
    simp

theorem replaceFirst_at_head (p : Char) (ps repl ys : List Char) :
    replaceFirstCS (p :: ps) repl ((p :: ps) ++ ys) = repl ++ ys := by
  rw [List.cons_append, replaceFirstCS]
  have hp : ((p :: ps).isPrefixOf (p :: (ps ++ ys)) : Bool) = true := by
    rw [List.isPrefixOf_iff_prefix]
    exact (List.cons_prefix_cons).mpr ⟨rfl, List.prefix_append ps ys⟩
  rw [if_pos hp]
  simp

/-! ## Helper lemmas: digits, trailing runs -/

theorem takeWhile_append_of_all {p : Char → Bool} {l₁ : List Char} (l₂ : List Char)
    (h : ∀ c ∈ l₁, p c = true) :
    (l₁ ++ l₂).takeWhile p = l₁ ++ l₂.takeWhile p := by
  induction l₁ with
  | nil => simp
  | cons c t ih =>
    rw [List.cons_append, List.takeWhile_cons, h c (by simp)]
    rw [ih (fun x hx => h x (by simp [hx]))]
    simp

theorem trailingDigitsLen_append {bs ds : List Char}
    (hd : ∀ c ∈ ds, c.isDigit = true)
    (hb : ∀ c, bs.getLast? = some c → c.isDigit = false) :
    trailingDigitsLen (bs ++ ds) = ds.length := by
  unfold trailingDigitsLen
  rw [List.reverse_append]
  rw [takeWhile_append_of_all bs.reverse (fun c hc => hd c (by simpa using hc))]
  have hbrev : bs.reverse.takeWhile Char.isDigit = [] := by
    cases hrev : bs.reverse with
    | nil => simp
    | cons c t =>
      have : bs.getLast? = some c := by
        rw [← List.head?_reverse, hrev]
        rfl
      rw [List.takeWhile_cons, hb c this]
      simp
  rw [hbrev]
  simp

theorem digitChar_isDigit {d : Nat} (h : d < 10) : (digitChar d).isDigit = true := by
  interval_cases d <;> decide

theorem digitChar_ne_bracket {d : Nat} (h : d < 10) : digitChar d ≠ '[' := by
  interval_cases d <;> decide

theorem natCharsAux_digits : ∀ fuel n : Nat, ∀ c ∈ natCharsAux fuel n, c.isDigit = true := by
  intro fuel
  induction fuel with
  | zero => intro n c hc; simp [natCharsAux] at hc
  | succ f ih =>
    intro n c hc
    rw [natCharsAux] at hc
    by_cases h : n < 10
    · rw [if_pos h] at hc
      simp at hc
      subst hc
      exact digitChar_isDigit h
    · rw [if_neg h] at hc
      rcases List.mem_append.mp hc with h1 | h2
      · exact ih _ c h1
      · simp at h2
        subst h2
        exact digitChar_isDigit (Nat.mod_lt _ (by norm_num))

theorem pad3chars_digits (n : Nat) : ∀ c ∈ pad3chars n, c.isDigit = true := by
  intro c hc
  unfold pad3chars at hc
  simp only at hc
  by_cases h : (natChars n).length < 3
  · rw [if_pos h] at hc
    rcases List.mem_append.mp hc with h1 | h2
    · have := List.eq_of_mem_replicate h1
      subst this
      decide
    · exact natCharsAux_digits _ _ c h2
  · rw [if_neg h] at hc
    exact natCharsAux_digits _ _ c hc

theorem count_eq_zero_of_all_digits {l : List Char} (h : ∀ c ∈ l, c.isDigit = true) :
    l.count '[' = 0 := by
  rw [List.count_eq_zero]
  intro hmem
  have := h _ hmem
  simp at this

theorem pad3chars_length (n : Nat) : 3 ≤ (pad3chars n).length := by
  unfold pad3chars
  simp only
  by_cases h : (natChars n).length < 3
  · rw [if_pos h]
    simp
    omega
  · rw [if_neg h]
    omega

/-! ## Helper lemmas: the date pattern and extractPattern case analysis -/

/-- The spec's reading of an embedded underscore-separated date. -/
def specDateShape (mid : List Char) : Prop :=
  ∃ y1 y2 y3 y4 m1 m2 d1 d2 : Char,
    mid = [y1, y2, y3, y4, '_', m1, m2, '_', d1, d2] ∧
    y1.isDigit = true ∧ y2.isDigit = true ∧ y3.isDigit = true ∧ y4.isDigit = true ∧
    m1.isDigit = true ∧ m2.isDigit = true ∧ d1.isDigit = true ∧ d2.isDigit = true

theorem isDatePatU_of_shape {mid : List Char} (h : specDateShape mid) (rest : List Char) :
    isDatePatU (mid ++ rest) = true := by
  obtain ⟨y1, y2, y3, y4, m1, m2, d1, d2, he, h1, h2, h3, h4, h5, h6, h7, h8⟩ := h
  subst he
  simp [isDatePatU, h1, h2, h3, h4, h5, h6, h7, h8]

theorem isDatePatU_decomp {cs : List Char} (h : isDatePatU cs = true) :
    ∃ mid rest, cs = mid ++ rest ∧ specDateShape mid := by
  cases cs with
  | nil => simp [isDatePatU] at h
  | cons y1 t1 =>
  cases t1 with
  | nil => simp [isDatePatU] at h
  | cons y2 t2 =>
  cases t2 with
  | nil => simp [isDatePatU] at h
  | cons y3 t3 =>
  cases t3 with
  | nil => simp [isDatePatU] at h
  | cons y4 t4 =>
  cases t4 with
  | nil => simp [isDatePatU] at h
  | cons s1 t5 =>
  cases t5 with
  | nil => simp [isDatePatU] at h
  | cons m1 t6 =>
  cases t6 with
  | nil => simp [isDatePatU] at h
  | cons m2 t7 =>
  cases t7 with
  | nil => simp [isDatePatU] at h
  | cons s2 t8 =>
  cases t8 with
  | nil => simp [isDatePatU] at h
  | cons d1 t9 =>
  cases t9 with
  | nil => simp [isDatePatU] at h
  | cons d2 rest =>
    simp only [isDatePatU, Bool.and_eq_true, beq_iff_eq] at h
    obtain ⟨⟨⟨⟨⟨⟨⟨⟨⟨h1, h2⟩, h3⟩, h4⟩, hs1⟩, h5⟩, h6⟩, hs2⟩, h7⟩, h8⟩ := h
    subst hs1; subst hs2
    exact ⟨[y1, y2, y3, y4, '_', m1, m2, '_', d1, d2], rest, rfl,
      y1, y2, y3, y4, m1, m2, d1, d2, rfl, h1, h2, h3, h4, h5, h6, h7, h8⟩

theorem findDateIdx_spec_some : ∀ {cs : List Char} {i : Nat}, findDateIdx cs = some i →
    isDatePatU (cs.drop i) = true ∧ ∀ j < i, isDatePatU (cs.drop j) = false := by
  intro cs
  induction cs with
  | nil => intro i h; simp [findDateIdx] at h
  | cons c t ih =>
    intro i h
    rw [findDateIdx] at h
    by_cases hp : isDatePatU (c :: t) = true
    · rw [if_pos hp] at h
      injection h with h0
      subst h0
      exact ⟨hp, fun j hj => absurd hj (by omega)⟩
    · rw [if_neg hp] at h
      rcases hi : findDateIdx t with _ | i'
      · rw [hi] at h; simp at h
      · rw [hi] at h
        simp at h
        subst h
        obtain ⟨ha, hb⟩ := ih hi
        refine ⟨by simpa using ha, ?_⟩
        intro j hj
        cases j with
        | zero => exact Bool.eq_false_iff.mpr hp ▸ (by simpa using Bool.eq_false_iff.mpr hp)
        | succ j' =>
          have : j' < i' := by omega
          simpa using hb j' this

theorem findDateIdx_some_of : ∀ {pre : List Char} {cs mid post : List Char},
    cs = pre ++ mid ++ post → specDateShape mid →
    (∀ j < pre.length, isDatePatU (cs.drop j) = false) →
    findDateIdx cs = some pre.length := by
  intro pre
  induction pre with
  | nil =>
    intro cs mid post he hm _
    subst he
    obtain ⟨y1, y2, y3, y4, m1, m2, d1, d2, hmid, h1, h2, h3, h4, h5, h6, h7, h8⟩ := hm
    subst hmid
    show findDateIdx (y1 :: ([y2, y3, y4, '_', m1, m2, '_', d1, d2] ++ post)) = some 0
    rw [findDateIdx]
    have hp : isDatePatU (y1 :: ([y2, y3, y4, '_', m1, m2, '_', d1, d2] ++ post)) = true := by
      simp [isDatePatU, List.cons_append, h1, h2, h3, h4, h5, h6, h7, h8]
    rw [if_pos hp]
  | cons p pre' ih =>
    intro cs mid post he hm hmin
    subst he
    show findDateIdx (p :: (pre' ++ mid ++ post)) = some (pre'.length + 1)
    rw [findDateIdx]
    have h0 : isDatePatU (p :: (pre' ++ (mid ++ post))) = false := by
      have := hmin 0 (by simp)
      simpa [List.append_assoc] using this
    rw [if_neg (by simp [h0])]
    have hrec : findDateIdx (pre' ++ mid ++ post) = some pre'.length :=
      ih rfl hm (fun j hj => by
        have := hmin (j + 1) (by simp; omega)
        simpa using this)
    rw [hrec]
    rfl

theorem findDateIdx_eq_none {cs : List Char}
    (h : ∀ pre mid post : List Char, cs = pre ++ mid ++ post → ¬ specDateShape mid) :
    findDateIdx cs = none := by
  cases hfd : findDateIdx cs with
  | none => rfl
  | some i =>
    obtain ⟨hp, _⟩ := findDateIdx_spec_some hfd
    obtain ⟨mid, rest, hdrop, hm⟩ := isDatePatU_decomp hp
    have hcs : cs = cs.take i ++ mid ++ rest := by
      conv_lhs => rw [← List.take_append_drop i cs]
      rw [hdrop, List.append_assoc]
    exact absurd hm (h _ _ _ hcs)

def trailingRun3 (cs : List Char) : Prop :=
  ∃ bs ds : List Char, cs = bs ++ ds ∧ 3 ≤ ds.length ∧ ∀ c ∈ ds, c.isDigit = true

theorem trailingDigitsLen_ge_of_run {bs ds cs : List Char}
    (he : cs = bs ++ ds) (hd : ∀ c ∈ ds, c.isDigit = true) :
    ds.length ≤ trailingDigitsLen cs := by
  subst he
  unfold trailingDigitsLen
  rw [List.reverse_append]
  rw [takeWhile_append_of_all bs.reverse (fun c hc => hd c (by simpa using hc))]
  simp

theorem run_of_trailingDigitsLen {cs : List Char} (h : 3 ≤ trailingDigitsLen cs) :
    trailingRun3 cs := by
  have hTD := List.takeWhile_append_dropWhile (p := Char.isDigit) (l := cs.reverse)
  have hcs : cs = (cs.reverse.dropWhile Char.isDigit).reverse ++
      (cs.reverse.takeWhile Char.isDigit).reverse := by
    have h2 := congrArg List.reverse hTD
    rw [List.reverse_append, List.reverse_reverse] at h2
    exact h2.symm
  refine ⟨(cs.reverse.dropWhile Char.isDigit).reverse,
          (cs.reverse.takeWhile Char.isDigit).reverse, hcs, ?_, ?_⟩
  · simpa [trailingDigitsLen] using h
  · intro c hc
    exact List.mem_takeWhile_imp (by simpa using hc)

theorem not_trailingRun3_lt {cs : List Char} (h : ¬ trailingRun3 cs) :
    trailingDigitsLen cs < 3 := by
  by_contra hc
  exact h (run_of_trailingDigitsLen (by omega))

theorem specDateShape_length {mid : List Char} (h : specDateShape mid) : mid.length = 10 := by
  obtain ⟨_, _, _, _, _, _, _, _, he, _⟩ := h
  subst he
  rfl

theorem extractPatternCore_trailing {bs ds : List Char}
    (hd : ∀ c ∈ ds, c.isDigit = true) (hlen : 3 ≤ ds.length)
    (hb : ∀ c, bs.getLast? = some c → c.isDigit = false) :
    extractPatternCore (bs ++ ds) = bs ++ nPlaceholder := by
  have htd : trailingDigitsLen (bs ++ ds) = ds.length := by
    unfold trailingDigitsLen
    rw [List.reverse_append]
    rw [takeWhile_append_of_all bs.reverse (fun c hc => hd c (by simpa using hc))]
    have hbrev : bs.reverse.takeWhile Char.isDigit = [] := by
      cases hrev : bs.reverse with
      | nil => simp
      | cons c t =>
        have hlast : bs.getLast? = some c := by
          rw [← List.head?_reverse, hrev]
          rfl
        rw [List.takeWhile_cons, hb c hlast]
        simp
    rw [hbrev]
    simp
  have hne : bs ++ ds ≠ [] := by
    intro hx
    rw [List.append_eq_nil] at hx
    have := hx.2
    subst this
    simp at hlen
  unfold extractPatternCore
  rw [if_neg hne]
  simp only [htd]
  rw [if_pos hlen]
  congr 1
  have hl : (bs ++ ds).length - ds.length = bs.length := by simp
  rw [hl, List.take_left]

theorem extractPatternCore_date {cs pre mid post : List Char}
    (htd : trailingDigitsLen cs < 3)
    (he : cs = pre ++ mid ++ post) (hm : specDateShape mid)
    (hmin : ∀ j < pre.length, isDatePatU (cs.drop j) = false) :
    extractPatternCore cs = pre ++ datePlaceholder ++ post := by
  have hmlen : mid.length = 10 := specDateShape_length hm
  have hne : cs ≠ [] := by
    intro hx
    rw [hx] at he
    have := congrArg List.length he
    simp [hmlen] at this
    omega
  have hfd := findDateIdx_some_of he hm hmin
  unfold extractPatternCore
  rw [if_neg hne]
  rw [if_neg (by omega)]
  rw [hfd]
  show cs.take pre.length ++ datePlaceholder ++ cs.drop (pre.length + 10)
      = pre ++ datePlaceholder ++ post
  have htake : cs.take pre.length = pre := by
    rw [he, List.append_assoc]
    exact List.take_left pre (mid ++ post)
  have hdrop : cs.drop (pre.length + 10) = post := by
    rw [he]
    have : pre.length + 10 = (pre ++ mid).length := by simp [hmlen]
    rw [this]
    exact List.drop_left (pre ++ mid) post
  rw [htake, hdrop]

theorem extractPatternCore_noDate {cs : List Char} (hne : cs ≠ [])
    (htd : trailingDigitsLen cs < 3) (hfd : findDateIdx cs = none) :
    extractPatternCore cs = cs ++ '_' :: nPlaceholder := by
  unfold extractPatternCore
  rw [if_neg hne]
  rw [if_neg (by omega)]
  rw [hfd]

/-! ## Helper lemmas: bucketing is a permutation -/

theorem insertBucket_flatten_perm (b : List (String × List String)) (k f : String) :
    ((insertBucket b k f).map (·.2)).flatten.Perm ((b.map (·.2)).flatten ++ [f]) := by
  induction b with
  | nil => simp [insertBucket]
  | cons kv rest ih =>
    obtain ⟨k', fs⟩ := kv
    rw [insertBucket]
    by_cases h : k' = k
    · rw [if_pos h]
      simp only [List.map_cons, List.flatten_cons]
      rw [List.append_assoc fs, List.append_assoc fs]
      exact List.Perm.append_left fs List.perm_append_comm
    · rw [if_neg h]
      simp only [List.map_cons, List.flatten_cons]
      rw [List.append_assoc fs]
      exact List.Perm.append_left fs ih

theorem foldl_insertBucket_perm (keyFn : String → String) :
    ∀ (files : List String) (b : List (String × List String)),
      (((files.foldl (fun b f => insertBucket b (keyFn f) f) b).map (·.2)).flatten).Perm
        ((b.map (·.2)).flatten ++ files) := by
  intro files
  induction files with
  | nil => intro b; simp
  | cons f rest ih =>
    intro b
    rw [List.foldl_cons]
    refine (ih (insertBucket b (keyFn f) f)).trans ?_
    have h2 := (insertBucket_flatten_perm b (keyFn f) f).append_right rest
    have e : ((b.map (·.2)).flatten ++ [f]) ++ rest
        = (b.map (·.2)).flatten ++ (f :: rest) := by simp
    exact e ▸ h2

theorem insertBucket_nonempty {b : List (String × List String)} (k f : String)
    (h : ∀ kv ∈ b, kv.2 ≠ []) :
    ∀ kv ∈ insertBucket b k f, kv.2 ≠ [] := by
  induction b with
  | nil =>
    intro kv hkv
    simp [insertBucket] at hkv
    subst hkv
    simp
  | cons kv0 rest ih =>
    obtain ⟨k', fs⟩ := kv0
    intro kv hkv
    rw [insertBucket] at hkv
    by_cases hk : k' = k
    · rw [if_pos hk] at hkv
      rcases List.mem_cons.mp hkv with h1 | h2
      · subst h1; simp
      · exact h kv (List.mem_cons_of_mem _ h2)
    · rw [if_neg hk] at hkv
      rcases List.mem_cons.mp hkv with h1 | h2
      · subst h1
        exact h ⟨k', fs⟩ (by simp)
      · exact ih (fun kv2 hkv2 => h kv2 (List.mem_cons_of_mem _ hkv2)) kv h2

theorem foldl_insertBucket_nonempty (keyFn : String → String) :
    ∀ (files : List String) (b : List (String × List String)),
      (∀ kv ∈ b, kv.2 ≠ []) →
      ∀ kv ∈ files.foldl (fun b f => insertBucket b (keyFn f) f) b, kv.2 ≠ [] := by
  intro files
  induction files with
  | nil => intro b hb; simpa using hb
  | cons f rest ih =>
    intro b hb
    rw [List.foldl_cons]
    exact ih (insertBucket b (keyFn f) f) (insertBucket_nonempty (keyFn f) f hb)

theorem filterMap_buckets_eq {buckets : List (String × List String)}
    (h : ∀ kv ∈ buckets, kv.2 ≠ []) :
    (buckets.filterMap fun kv =>
      match kv.2 with
      | [] => none
      | rep :: rest => some (⟨rep, rest⟩ : FileGroup)).map
        (fun g => g.representative :: g.similar)
      = buckets.map (·.2) := by
  induction buckets with
  | nil => simp
  | cons kv rest ih =>
    obtain ⟨k, fs⟩ := kv
    cases hfs : fs with
    | nil =>
      have hcontra := h (k, fs) (by simp)
      rw [hfs] at hcontra
      exact absurd rfl hcontra
    | cons rep tl =>
      subst hfs
      rw [List.filterMap_cons]
      show ((⟨rep, tl⟩ : FileGroup) :: List.filterMap (fun kv =>
          match kv.2 with
          | [] => none
          | rep :: rest => some (⟨rep, rest⟩ : FileGroup)) rest).map
          (fun g => g.representative :: g.similar)
        = ((k, rep :: tl) :: rest).map (·.2)
      rw [List.map_cons]
      rw [ih (fun kv2 hkv2 => h kv2 (List.mem_cons_of_mem _ hkv2))]
      simp

theorem groupFiles_flatten_perm (keyFn : String → String) (files : List String) :
    ((groupFiles keyFn files).map (fun g => g.representative :: g.similar)).flatten.Perm files := by
  unfold groupFiles
  by_cases h : files = []
  · rw [if_pos h]; simp [h]
  · rw [if_neg h]
    have hne := foldl_insertBucket_nonempty keyFn files [] (by simp)
    rw [filterMap_buckets_eq hne]
    simpa using foldl_insertBucket_perm keyFn files []

/-! ## Helper lemmas: the pipeline -/

theorem processFile_originalName (cfg : PipelineConfig)
    (mo : String → Option MetadataScore) (pr : String → ProviderResponse)
    (p : String) : (processFile cfg mo pr p).originalName = p := by
  unfold processFile
  split
  · split
    · rfl
    · simp [laterStages, tryCheapModel, tryPremiumModel]
  · simp [laterStages, tryCheapModel, tryPremiumModel]

theorem patternSiblings_map_originalName (pattern : String) (conf : ℚ) (now : String) :
    ∀ (sims : List String) (k : Nat), (∀ f ∈ sims, f ≠ "") →
      (patternSiblings pattern conf now sims k).map (·.originalName) = sims := by
  intro sims
  induction sims with
  | nil => intro k _; rfl
  | cons f rest ih =>
    intro k hnn
    rw [patternSiblings]
    rw [if_neg (hnn f (by simp))]
    rw [List.map_cons]
    rw [ih (k + 1) (fun x hx => hnn x (by simp [hx]))]

theorem patternSiblings_length (pattern : String) (conf : ℚ) (now : String) :
    ∀ (sims : List String) (k : Nat), (∀ f ∈ sims, f ≠ "") →
      (patternSiblings pattern conf now sims k).length = sims.length := by
  intro sims
  induction sims with
  | nil => intro k _; rfl
  | cons f rest ih =>
    intro k hnn
    rw [patternSiblings]
    rw [if_neg (hnn f (by simp))]
    rw [List.length_cons]
    rw [ih (k + 1) (fun x hx => hnn x (by simp [hx]))]
    rfl

theorem patternSiblings_getElem (pattern : String) (conf : ℚ) (now : String) :
    ∀ (sims : List String) (k i : Nat) (f : String), (∀ x ∈ sims, x ≠ "") →
      sims[i]? = some f →
      (patternSiblings pattern conf now sims k)[i]? = some
        { originalName := f,
          suggestedName := some (applyPattern pattern (k + i) (lastComponent f) now),
          confidence := conf * (95/100),
          stage := "batch-pattern", tokensUsed := 20,
          cost := calculateCost 20 "gpt-5-mini", reasoning := none } := by
  intro sims
  induction sims with
  | nil => intro k i f _ hf; simp at hf
  | cons x rest ih =>
    intro k i f hnn hf
    rw [patternSiblings]
    rw [if_neg (hnn x (by simp))]
    cases i with
    | zero =>
      simp at hf
      subst hf
      simp
    | succ i' =>
      simp only [List.getElem?_cons_succ] at hf ⊢
      have := ih (k + 1) i' f (fun y hy => hnn y (by simp [hy])) hf
      rw [this]
      have harith : k + 1 + i' = k + (i' + 1) := by omega
      rw [harith]

theorem processGroup_map_originalName (cfg : PipelineConfig)
    (mo : String → Option MetadataScore) (pr : String → ProviderResponse)
    (now : String) (g : FileGroup) (hnn : ∀ f ∈ g.similar, f ≠ "") :
    (processGroup cfg mo pr now g).1.map (·.originalName)
      = g.representative :: g.similar := by
  unfold processGroup
  by_cases hc : 0 < g.similar.length ∧
      (processFile cfg mo pr g.representative).confidence > 7/10
  · rw [if_pos hc]
    rw [List.map_cons]
    rw [processFile_originalName]
    rw [patternSiblings_map_originalName _ _ _ _ _ hnn]
  · rw [if_neg hc]
    rw [List.map_cons]
    rw [processFile_originalName]
    rw [List.map_map]
    congr 1
    conv_rhs => rw [← List.map_id g.similar]
    apply List.map_congr_left
    intro f _
    exact processFile_originalName cfg mo pr f

theorem processBatch_map_originalName_perm (cfg : PipelineConfig)
    (mo : String → Option MetadataScore) (pr : String → ProviderResponse)
    (keyFn : String → String) (now : String) (files : List String)
    (hnn : ∀ f ∈ files, f ≠ "") :
    ((processBatch cfg mo pr keyFn now files).1.map (·.originalName)).Perm files := by
  have hflat := groupFiles_flatten_perm keyFn files
  have hmem : ∀ g ∈ groupFiles keyFn files, ∀ f ∈ g.similar, f ∈ files := by
    intro g hg f hf
    apply hflat.mem_iff.mp
    exact List.mem_flatten.mpr
      ⟨g.representative :: g.similar, List.mem_map.mpr ⟨g, hg, rfl⟩, by simp [hf]⟩
  unfold processBatch
  simp only
  rw [List.map_flatten, List.map_map]
  have hcongr : (groupFiles keyFn files).map
        ((List.map (·.originalName)) ∘ fun g => (processGroup cfg mo pr now g).1)
      = (groupFiles keyFn files).map (fun g => g.representative :: g.similar) := by
    apply List.map_congr_left
    intro g hg
    exact processGroup_map_originalName cfg mo pr now g
      (fun f hf => hnn f (hmem g hg f hf))
  rw [hcongr]
  exact hflat

/-! ## Claim theorems -/

/-- C2: the cache key of `FileNamingSDK.getCacheKey` is a function of the
file's full contents and the serialized options only — it is independent of
the file's size and modification time, contradicting the claim that it is
derived from size + mtime without reading the contents.  Stated for the
concrete contents `[1, 2, 3]` with options `"{}"`: changing the size and
mtime arbitrarily leaves the key unchanged, and the general statement holds
for every hash function, contents and metadata. -/
theorem getCacheKey_ignores_size_and_mtime :
    (∀ (hashFn : List Nat → String) (content : List Nat) (s1 s2 : Nat)
      (t1 t2 : Int) (optionsStr : String),
      getCacheKey hashFn ⟨content, s1, t1⟩ optionsStr
        = getCacheKey hashFn ⟨content, s2, t2⟩ optionsStr)
    ∧ getCacheKey (fun c => toString c.length) ⟨[1, 2, 3], 10, 100⟩ "{}"
        = getCacheKey (fun c => toString c.length) ⟨[1, 2, 3], 999, 200⟩ "{}" := by
  exact ⟨fun _ _ _ _ _ _ _ => rfl, rfl⟩

/-- C4: `MetadataExtractor.calculateConfidence` implements exactly the
priority-ordered first-match-wins rule table of the spec
(`calcConfidenceSpec`), its result always lies in `[0, 1]`, and a
screenshot-named file with an embedded date scores at least `0.95`. -/
theorem calculateConfidence_spec :
    (∀ m : RichMetadata, calculateConfidence m = calcConfidenceSpec m)
    ∧ (∀ m : RichMetadata, 0 ≤ calculateConfidence m ∧ calculateConfidence m ≤ 1)
    ∧ (∀ m : RichMetadata, patIsScreenshot m = true → patHasDate m = true →
        95/100 ≤ calculateConfidence m) := by
  refine ⟨?_, ?_, ?_⟩
  · intro m
    unfold calculateConfidence calcConfidenceSpec
    simp only [Bool.and_eq_true]
  · intro m
    unfold calculateConfidence
    split_ifs <;> norm_num
  · intro m h1 h2
    unfold calculateConfidence
    rw [h1, h2]
    norm_num

/-- C4 witness: a screenshot-named metadata record with a date pattern
scores at least `0.95`. -/
theorem calculateConfidence_spec_witness :
    95/100 ≤ calculateConfidence ⟨none, some ⟨false, true, false, true, false⟩⟩ :=
  calculateConfidence_spec.2.2 ⟨none, some ⟨false, true, false, true, false⟩⟩ rfl rfl

/-- C8: `tryCheapModel` returns `null` for every file, so `processFile`
settles every file either at the `metadata` stage (only possible when the
metadata stage is enabled and the extractor's confidence reaches the
configured threshold) or at the `premium-model` stage — never at a
cheap-model stage. -/
theorem processFile_never_cheap_model :
    (∀ p : String, tryCheapModel p = none)
    ∧ (∀ (cfg : PipelineConfig) (mo : String → Option MetadataScore)
        (pr : String → ProviderResponse) (f : String),
        (processFile cfg mo pr f).stage = "metadata"
          ∨ (processFile cfg mo pr f).stage = "premium-model")
    ∧ (∀ (cfg : PipelineConfig) (mo : String → Option MetadataScore)
        (pr : String → ProviderResponse) (f : String),
        (processFile cfg mo pr f).stage = "metadata" →
          cfg.enableMetadataStage = true ∧
          ∃ ms, mo f = some ms ∧ cfg.confidenceThresholds.metadata ≤ ms.confidence) := by
  refine ⟨fun _ => rfl, ?_, ?_⟩
  · intro cfg mo pr f
    unfold processFile
    split
    · split
      · left; rfl
      · right; simp [laterStages, tryCheapModel, tryPremiumModel]
    · right; simp [laterStages, tryCheapModel, tryPremiumModel]
  · intro cfg mo pr f h
    unfold processFile at h
    split at h
    · rename_i m heq
      split at h
      · by_cases hen : cfg.enableMetadataStage = true
        · refine ⟨hen, ?_⟩
          rw [if_pos hen] at heq
          unfold tryMetadataOnly at heq
          cases hmo : mo f with
          | none =>
            rw [hmo] at heq
            have heq2 : (none : Option MetadataScore) = some m := heq
            simp at heq2
          | some r =>
            rw [hmo] at heq
            have heq2 : (if cfg.confidenceThresholds.metadata ≤ r.confidence
                then some r else none) = some m := heq
            by_cases hth : cfg.confidenceThresholds.metadata ≤ r.confidence
            · rw [if_pos hth] at heq2
              injection heq2 with heq3
              exact ⟨r, rfl, hth⟩
            · rw [if_neg hth] at heq2
              simp at heq2
        · rw [if_neg hen] at heq
          simp at heq
      · simp [laterStages, tryCheapModel, tryPremiumModel] at h
    · simp [laterStages, tryCheapModel, tryPremiumModel] at h

/-- C8 witness: with an empty metadata oracle the pipeline settles the file
at the premium stage, never at a cheap-model stage. -/
theorem processFile_never_cheap_model_witness :
    (processFile balancedConfig (fun _ => none) (fun _ => ⟨"x", 1⟩) "a").stage = "metadata"
      ∨ (processFile balancedConfig (fun _ => none) (fun _ => ⟨"x", 1⟩) "a").stage = "premium-model" :=
  processFile_never_cheap_model.2.1 balancedConfig (fun _ => none) (fun _ => ⟨"x", 1⟩) "a"

/-- C10: `getStats` on the empty result list returns all-zero counters but
an `averageConfidence` of `0 / 0`, which is JavaScript `NaN` (modelled as
`none`), not a value in `[0, 1]`; on every non-empty list
`averageConfidence` is the arithmetic mean of the confidences. -/
theorem getStats_average_confidence :
    (getStats [] = ⟨0, 0, 0, 0, 0, 0, 0, none⟩)
    ∧ (∀ x : ℚ, (getStats []).averageConfidence ≠ some x)
    ∧ (∀ rs : List PipelineResult, rs ≠ [] →
        (getStats rs).averageConfidence
          = some ((rs.map (·.confidence)).sum / (rs.length : ℚ)))
    ∧ (∀ rs : List PipelineResult, (getStats rs).total = rs.length
        ∧ (getStats rs).totalTokens = (rs.map (·.tokensUsed)).sum
        ∧ (getStats rs).totalCost = (rs.map (·.cost)).sum) := by
  refine ⟨?_, ?_, ?_, ?_⟩
  · simp [getStats, jsDiv]
  · intro x
    simp [getStats, jsDiv]
  · intro rs hne
    have h0 : rs.length ≠ 0 := fun h => hne (List.length_eq_zero.mp h)
    have hq : ((rs.length : ℚ)) ≠ 0 := Nat.cast_ne_zero.mpr h0
    simp [getStats, jsDiv, hq]
  · intro rs
    exact ⟨rfl, rfl, rfl⟩

/-- C10 witness: a one-element result list has mean confidence equal to its
single confidence divided by one. -/
theorem getStats_average_confidence_witness :
    (getStats [⟨"a", none, 1/2, "metadata", 0, 0, none⟩]).averageConfidence
      = some (1/2 : ℚ) := by
  have h := getStats_average_confidence.2.2.1
    [⟨"a", none, 1/2, "metadata", 0, 0, none⟩] (by simp)
  simpa using h

/-- C7: `processBatch` returns exactly one result per input file (for any
configuration, oracles and bucketing key): the result list has the length
of the input list, its original names are a permutation of the inputs, and
when the input paths are distinct every input path is the `originalName` of
exactly one result.  The hypothesis that no input path is the empty string
reflects that `fs.stat` rejects the empty path, so an empty path can never
reach the grouping stage. -/
theorem processBatch_enumerates_inputs (cfg : PipelineConfig)
    (mo : String → Option MetadataScore) (pr : String → ProviderResponse)
    (keyFn : String → String) (now : String) (files : List String)
    (hnn : ∀ f ∈ files, f ≠ "") :
    (processBatch cfg mo pr keyFn now files).1.length = files.length
    ∧ ((processBatch cfg mo pr keyFn now files).1.map (·.originalName)).Perm files
    ∧ (files.Nodup → ∀ f ∈ files,
        ((processBatch cfg mo pr keyFn now files).1.map (·.originalName)).count f = 1) := by
  have hperm := processBatch_map_originalName_perm cfg mo pr keyFn now files hnn
  refine ⟨?_, hperm, ?_⟩
  · have h := hperm.length_eq
    simpa using h
  · intro hnd f hf
    rw [hperm.count_eq]
    exact List.count_eq_one_of_mem hnd hf

/-- C7 witness: a concrete two-file batch (one bucket) yields two results
whose original names are exactly the two inputs. -/
theorem processBatch_enumerates_inputs_witness :
    (processBatch balancedConfig (fun _ => none) (fun _ => ⟨"x", 1⟩)
      (fun _ => "k") "2025_01_01" ["a", "b"]).1.length = (["a", "b"] : List String).length
    ∧ ((processBatch balancedConfig (fun _ => none) (fun _ => ⟨"x", 1⟩)
      (fun _ => "k") "2025_01_01" ["a", "b"]).1.map (·.originalName)).Perm ["a", "b"] := by
  have h := processBatch_enumerates_inputs balancedConfig (fun _ => none)
    (fun _ => ⟨"x", 1⟩) (fun _ => "k") "2025_01_01" ["a", "b"] (by decide)
  exact ⟨h.1, h.2.1⟩

/-- C9 counterexample: the claim as stated fails on a name that already
contains the `[n]` placeholder — `extractPattern "[n]"` appends `_[n]` and
the result `"[n]_[n]"` contains the `[n]` placeholder twice. -/
theorem extractPattern_placeholder_counterexample :
    extractPattern "[n]" = "[n]_[n]"
    ∧ countSub nPlaceholder (extractPattern "[n]").data = 2
    ∧ ¬ (countSub nPlaceholder (extractPattern "[n]").data ≤ 1) := by
  refine ⟨by decide, by decide, by decide⟩

/-- C9 (amended): for every input name containing no `'['` character — in
particular any name free of placeholders — the pattern returned by
`extractPattern` contains at most one occurrence of `[n]` and at most one
occurrence of `[date]`. -/
theorem extractPattern_placeholder_bound (name : String)
    (h : name.data.count '[' = 0) :
    countSub nPlaceholder (extractPattern name).data ≤ 1
    ∧ countSub datePlaceholder (extractPattern name).data ≤ 1 := by
  have hkey : (extractPatternCore name.data).count '[' ≤ 1 := by
    unfold extractPatternCore
    by_cases hnil : name.data = []
    · rw [if_pos hnil]; decide
    · rw [if_neg hnil]
      by_cases htd : 3 ≤ trailingDigitsLen name.data
      · rw [if_pos htd]
        rw [List.count_append]
        have h1 := ((List.take_sublist (name.data.length - trailingDigitsLen name.data)
          name.data).count_le '[')
        rw [h] at h1
        have h2 : nPlaceholder.count '[' = 1 := by decide
        omega
      · rw [if_neg htd]
        cases hfd : findDateIdx name.data with
        | some i =>
          show List.count '[' (name.data.take i ++ datePlaceholder
            ++ name.data.drop (i + 10)) ≤ 1
          rw [List.count_append, List.count_append]
          have h1 := ((List.take_sublist i name.data).count_le '[')
          have h2 := ((List.drop_sublist (i + 10) name.data).count_le '[')
          rw [h] at h1 h2
          have h3 : datePlaceholder.count '[' = 1 := by decide
          omega
        | none =>
          show List.count '[' (name.data ++ '_' :: nPlaceholder) ≤ 1
          rw [List.count_append]
          have h2 : ('_' :: nPlaceholder).count '[' = 1 := by decide
          omega
  have hn : nPlaceholder = '[' :: ['n', ']'] := rfl
  have hd : datePlaceholder = '[' :: ['d', 'a', 't', 'e', ']'] := rfl
  constructor
  · rw [hn]
    exact le_trans (countSub_le_count '[' ['n', ']'] (extractPattern name).data) hkey
  · rw [hd]
    exact le_trans (countSub_le_count '[' ['d', 'a', 't', 'e', ']'] (extractPattern name).data) hkey

/-- C9 witness: a plain name without brackets gets a pattern with at most
one of each placeholder. -/
theorem extractPattern_placeholder_bound_witness :
    countSub nPlaceholder (extractPattern "img_2023_05_10").data ≤ 1
    ∧ countSub datePlaceholder (extractPattern "img_2023_05_10").data ≤ 1 :=
  extractPattern_placeholder_bound "img_2023_05_10" (by decide)

/-- An embedded underscore-separated date somewhere in the list — the
spec-level reading of "contains an embedded date". -/
def containsDateU (cs : List Char) : Prop :=
  ∃ pre mid post : List Char, cs = pre ++ mid ++ post ∧ specDateShape mid

/-- C5 counterexample: `"photo-2023-05-10"` contains a date of the claimed
flexible form `YYYY[-_]?MM[-_]?DD` (dash separators), yet `extractPattern`
does not produce `"photo-[date]"`; it appends `_[n]` because its date regex
accepts underscores only. -/
theorem extractPattern_dash_date_counterexample :
    extractPattern "photo-2023-05-10" = "photo-2023-05-10_[n]"
    ∧ extractPattern "photo-2023-05-10" ≠ "photo-[date]" := by
  exact ⟨by decide, by decide⟩

/-- C5 (amended): `extractPattern` maps the empty name to `"[n]"`; a name
ending in a maximal run of at least three digits to its prefix with the run
replaced by `[n]`; otherwise a name containing an embedded
underscore-separated date `YYYY_MM_DD` to the name with the leftmost such
date replaced by `[date]`; otherwise it appends `_[n]`.  (Compared to the
claim, the date must be underscore-separated — `YYYY_MM_DD` — not the
flexible `YYYY[-_]?MM[-_]?DD` form.) -/
theorem extractPattern_cases :
    (extractPattern "" = "[n]")
    ∧ (∀ bs ds : List Char, (∀ c ∈ ds, c.isDigit = true) → 3 ≤ ds.length →
        (∀ c, bs.getLast? = some c → c.isDigit = false) →
        extractPattern (String.mk (bs ++ ds)) = String.mk (bs ++ nPlaceholder))
    ∧ (∀ (name : String) (pre mid post : List Char),
        ¬ trailingRun3 name.data →
        name.data = pre ++ mid ++ post → specDateShape mid →
        (∀ pre' mid' post', name.data = pre' ++ mid' ++ post' → specDateShape mid' →
          pre.length ≤ pre'.length) →
        extractPattern name = String.mk (pre ++ datePlaceholder ++ post))
    ∧ (∀ name : String, name ≠ "" → ¬ trailingRun3 name.data →
        ¬ containsDateU name.data →
        extractPattern name = name ++ "_[n]") := by
  refine ⟨by decide, ?_, ?_, ?_⟩
  · intro bs ds hd hlen hb
    unfold extractPattern
    exact congrArg String.mk (extractPatternCore_trailing hd hlen hb)
  · intro name pre mid post hrun he hm hleft
    have htd : trailingDigitsLen name.data < 3 := not_trailingRun3_lt hrun
    have hmin : ∀ j < pre.length, isDatePatU (name.data.drop j) = false := by
      intro j hj
      by_contra hcon
      have hcon2 : isDatePatU (name.data.drop j) = true := by
        cases hx : isDatePatU (name.data.drop j)
        · exact absurd hx hcon
        · rfl
      obtain ⟨mid', rest', hdrop, hm'⟩ := isDatePatU_decomp hcon2
      have hlenp : pre.length ≤ name.data.length := by
        rw [he, List.length_append, List.length_append]
        omega
      have hcs : name.data = name.data.take j ++ mid' ++ rest' := by
        conv_lhs => rw [← List.take_append_drop j name.data]
        rw [hdrop, List.append_assoc]
      have htl : (name.data.take j).length = j := by
        rw [List.length_take]
        omega
      have := hleft (name.data.take j) mid' rest' hcs hm'
      omega
    unfold extractPattern
    exact congrArg String.mk (extractPatternCore_date htd he hm hmin)
  · intro name hne hrun hcd
    have hne' : name.data ≠ [] := by
      intro hx
      exact hne (String.ext hx)
    have htd : trailingDigitsLen name.data < 3 := not_trailingRun3_lt hrun
    have hfd : findDateIdx name.data = none :=
      findDateIdx_eq_none (fun pre mid post he hm => hcd ⟨pre, mid, post, he, hm⟩)
    unfold extractPattern
    apply String.ext
    show extractPatternCore name.data = (name ++ "_[n]").data
    rw [extractPatternCore_noDate hne' htd hfd]
    rw [String.data_append]
    rfl

/-- C5 witness: `"img_123"` decomposes as `"img_" ++ "123"` and the run is
replaced by `[n]`. -/
theorem extractPattern_cases_witness :
    extractPattern (String.mk ("img_".data ++ "123".data))
      = String.mk ("img_".data ++ nPlaceholder) :=
  extractPattern_cases.2.1 "img_".data "123".data (by decide) (by decide) (by decide)

/-- C6 counterexample: the claim fails for a name whose prefix already
contains a literal `[n]`: `extractPattern "a[n]123" = "a[n][n]"`, and
`applyPattern` replaces the leftmost `[n]` — the one inside the prefix —
so the numeral does not land at the position of the original digit run. -/
theorem applyPattern_roundtrip_counterexample :
    extractPattern "a[n]123" = "a[n][n]"
    ∧ applyPattern (extractPattern "a[n]123") 0 "x" "2025_01_01" = "a002[n]"
    ∧ applyPattern (extractPattern "a[n]123") 0 "x" "2025_01_01" ≠ "a[n]002" := by
  exact ⟨by decide, by decide, by decide⟩

/-- C6 (amended): for a name `bs ++ ds` ending in a maximal digit run `ds`
of at least three digits and whose prefix `bs` contains no `'['`,
`applyPattern (extractPattern (bs ++ ds)) i orig now` is exactly `bs`
followed by the zero-padded decimal numeral of `i + 2` (at least three
digits, every character a digit), for every index `i`, original name and
fallback date. -/
theorem applyPattern_extractPattern_roundtrip
    (bs ds : List Char) (i : Nat) (orig now : String)
    (hd : ∀ c ∈ ds, c.isDigit = true) (hlen : 3 ≤ ds.length)
    (hb : ∀ c, bs.getLast? = some c → c.isDigit = false)
    (hbr : bs.count '[' = 0) :
    applyPattern (extractPattern (String.mk (bs ++ ds))) i orig now
      = String.mk (bs ++ pad3chars (i + 2))
    ∧ 3 ≤ (pad3chars (i + 2)).length
    ∧ ∀ c ∈ pad3chars (i + 2), c.isDigit = true := by
  refine ⟨?_, pad3chars_length _, pad3chars_digits _⟩
  have hep : extractPatternCore (bs ++ ds) = bs ++ nPlaceholder :=
    extractPatternCore_trailing hd hlen hb
  have h1 : applyNStep (bs ++ nPlaceholder) i = bs ++ pad3chars (i + 2) := by
    unfold applyNStep
    have hs := hasSub_append_self nPlaceholder bs []
    rw [List.append_nil] at hs
    rw [if_pos hs]
    rw [show nPlaceholder = '[' :: ['n', ']'] from rfl]
    rw [replaceFirst_append_left hbr]
    have h2 := replaceFirst_at_head '[' ['n', ']'] (pad3chars (i + 2)) []
    rw [List.append_nil, List.append_nil] at h2
    rw [h2]
  have h3 : applyDateStep (bs ++ pad3chars (i + 2)) orig.data now.data
      = bs ++ pad3chars (i + 2) := by
    unfold applyDateStep
    have hcount : (bs ++ pad3chars (i + 2)).count '[' = 0 := by
      rw [List.count_append, hbr, count_eq_zero_of_all_digits (pad3chars_digits (i + 2))]
    have hfalse : hasSub datePlaceholder (bs ++ pad3chars (i + 2)) = false := by
      rw [show datePlaceholder = '[' :: ['d', 'a', 't', 'e', ']'] from rfl]
      exact hasSub_eq_false_of_count hcount
    rw [if_neg (by simp [hfalse])]
  show String.mk (applyPatternCore (extractPatternCore (bs ++ ds)) i orig.data now.data)
      = String.mk (bs ++ pad3chars (i + 2))
  rw [hep]
  unfold applyPatternCore
  rw [h1, h3]

/-- C6 witness: `"beach_sunset_001"` with sibling index 0 yields
`"beach_sunset_002"`. -/
theorem applyPattern_extractPattern_roundtrip_witness :
    applyPattern (extractPattern (String.mk ("beach_sunset_".data ++ "001".data)))
        0 "IMG_002.jpg" "2025_01_01"
      = String.mk ("beach_sunset_".data ++ pad3chars 2) :=
  (applyPattern_extractPattern_roundtrip "beach_sunset_".data "001".data 0
    "IMG_002.jpg" "2025_01_01" (by decide) (by decide) (by decide) (by decide)).1

/-- C3: with `maxRetries = 3`, an operation failing with a retryable error
on every attempt is invoked exactly 4 times (1 initial + 3 retries), the
k-th wait is `min(1000·2^(k−1), 10000)` plus a jitter of at most 30% of
that delay, the total wait is at most 9100 ms, and the last error is
propagated; a non-retryable error is propagated immediately after the
single attempt with no wait. -/
theorem executeWithRetry_spec {E A : Type} (e sentinel : E) (retryable : E → Bool)
    (jitterFrac : Nat → ℚ) (fn : Nat → Except E A)
    (hfn : ∀ k, fn k = Except.error e)
    (hjlo : ∀ k, 0 ≤ jitterFrac k) (hjhi : ∀ k, jitterFrac k ≤ 3/10) :
    (retryable e = true →
      executeWithRetry fn retryable jitterFrac 3 sentinel
        = (Except.error e, 4,
           [retryDelay 1 + jitterFrac 1 * retryDelay 1,
            retryDelay 2 + jitterFrac 2 * retryDelay 2,
            retryDelay 3 + jitterFrac 3 * retryDelay 3])
      ∧ retryDelay 1 = 1000 ∧ retryDelay 2 = 2000 ∧ retryDelay 3 = 4000
      ∧ (executeWithRetry fn retryable jitterFrac 3 sentinel).2.2.sum ≤ 9100)
    ∧ (retryable e = false →
      executeWithRetry fn retryable jitterFrac 3 sentinel
        = (Except.error e, 1, [])) := by
  have hd1 : retryDelay 1 = 1000 := by norm_num [retryDelay]
  have hd2 : retryDelay 2 = 2000 := by norm_num [retryDelay]
  have hd3 : retryDelay 3 = 4000 := by norm_num [retryDelay]
  constructor
  · intro hr
    have heq : executeWithRetry fn retryable jitterFrac 3 sentinel
        = (Except.error e, 4,
           [retryDelay 1 + jitterFrac 1 * retryDelay 1,
            retryDelay 2 + jitterFrac 2 * retryDelay 2,
            retryDelay 3 + jitterFrac 3 * retryDelay 3]) := by
      unfold executeWithRetry
      simp only [retryGo, hfn, hr]
      norm_num
    refine ⟨heq, hd1, hd2, hd3, ?_⟩
    rw [heq]
    simp only [List.sum_cons, List.sum_nil]
    rw [hd1, hd2, hd3]
    have h1 := hjhi 1
    have h2 := hjhi 2
    have h3 := hjhi 3
    linarith
  · intro hr
    unfold executeWithRetry
    simp only [retryGo, hfn, hr]
    norm_num

/-- C3 witness: with zero jitter the three waits are exactly 1000, 2000 and
4000 ms and the operation runs 4 times. -/
theorem executeWithRetry_spec_witness :
    executeWithRetry (fun _ => (Except.error true : Except Bool Unit)) (fun b => b)
        (fun _ => 0) 3 false
      = (Except.error true, 4, [1000, 2000, 4000]) := by
  have h := (executeWithRetry_spec (A := Unit) true false (fun b => b) (fun _ => 0)
    (fun _ => Except.error true) (fun _ => rfl) (fun _ => le_refl 0)
    (fun _ => by norm_num)).1 rfl
  rw [h.1]
  norm_num [retryDelay]

/-- C1 counterexample: with representative confidence exactly `0.7` — which
the claim's `≥ 0.7` trust condition includes — and one sibling, the code
does NOT pattern-name the sibling: both results have stage
`premium-model` and `processFile` runs on the sibling as well (the
invocation log holds both files). -/
theorem processBatch_confidence_boundary_counterexample :
    ((processBatch balancedConfig (fun _ => none) (fun _ => ⟨"nm", 7/10⟩)
        (fun _ => "k") "2025_01_01" ["a", "b"]).1.map (·.stage))
      = ["premium-model", "premium-model"]
    ∧ (processBatch balancedConfig (fun _ => none) (fun _ => ⟨"nm", 7/10⟩)
        (fun _ => "k") "2025_01_01" ["a", "b"]).2 = ["a", "b"]
    ∧ ((processBatch balancedConfig (fun _ => none) (fun _ => ⟨"nm", 7/10⟩)
        (fun _ => "k") "2025_01_01" ["a", "b"]).1.map (·.confidence)) = [7/10, 7/10] := by
  have hg : groupFiles (fun _ => "k") ["a", "b"]
      = [⟨"a", ["b"]⟩] := by decide
  have hpf : ∀ f : String, processFile balancedConfig (fun _ => none)
      (fun _ => ⟨"nm", 7/10⟩) f
      = ⟨f, some "nm", 7/10, "premium-model", 200, 1/4000, none⟩ := by
    intro f
    simp [processFile, balancedConfig, tryMetadataOnly, laterStages, tryCheapModel,
      tryPremiumModel, calculateCost]
    norm_num
  have hpg : processGroup balancedConfig (fun _ => none) (fun _ => ⟨"nm", 7/10⟩)
      "2025_01_01" ⟨"a", ["b"]⟩
      = ([(⟨"a", some "nm", 7/10, "premium-model", 200, 1/4000, none⟩ : PipelineResult),
          ⟨"b", some "nm", 7/10, "premium-model", 200, 1/4000, none⟩], ["a", "b"]) := by
    unfold processGroup
    rw [if_neg (by simp [hpf])]
    simp [hpf]
  unfold processBatch
  rw [hg]
  simp [hpg]

/-- C1 (amended): the trust condition is STRICT — pattern substitution on a
group's siblings happens exactly when the representative's confidence
exceeds 0.7 and at least one sibling exists; then only the representative
is run through `processFile` and every sibling gets the pattern-derived
name at confidence `representative × 0.95`, stage `batch-pattern`, 20
tokens; in every other case (including confidence exactly 0.7) the
representative and every sibling are run through `processFile`
individually.  `processBatch` is the concatenation of these per-group
outputs over the groups produced by `group`. -/
theorem processBatch_pattern_trust_dichotomy
    (cfg : PipelineConfig) (mo : String → Option MetadataScore)
    (pr : String → ProviderResponse) (keyFn : String → String)
    (now : String) (files : List String) (g : FileGroup)
    (hg : g ∈ groupFiles keyFn files)
    (hnn : ∀ f ∈ g.similar, f ≠ "") :
    (processBatch cfg mo pr keyFn now files
      = (((groupFiles keyFn files).map
            fun x => (processGroup cfg mo pr now x).1).flatten,
         ((groupFiles keyFn files).map
            fun x => (processGroup cfg mo pr now x).2).flatten))
    ∧ ((processFile cfg mo pr g.representative).confidence > 7/10 → g.similar ≠ [] →
        (processGroup cfg mo pr now g).2 = [g.representative]
        ∧ (processGroup cfg mo pr now g).1.length = g.similar.length + 1
        ∧ (processGroup cfg mo pr now g).1.head?
            = some (processFile cfg mo pr g.representative)
        ∧ (∀ (i : Nat) (f : String), g.similar[i]? = some f →
            (processGroup cfg mo pr now g).1[i + 1]? = some
              { originalName := f,
                suggestedName := some (applyPattern
                  (extractPattern
                    ((processFile cfg mo pr g.representative).suggestedName.getD ""))
                  i (lastComponent f) now),
                confidence := (processFile cfg mo pr g.representative).confidence * (95/100),
                stage := "batch-pattern", tokensUsed := 20,
                cost := calculateCost 20 "gpt-5-mini", reasoning := none }))
    ∧ (¬ ((processFile cfg mo pr g.representative).confidence > 7/10 ∧ g.similar ≠ []) →
        processGroup cfg mo pr now g
          = (processFile cfg mo pr g.representative
              :: g.similar.map (processFile cfg mo pr),
             g.representative :: g.similar)) := by
  refine ⟨rfl, ?_, ?_⟩
  · intro hconf hsim
    have hcond : 0 < g.similar.length ∧
        (processFile cfg mo pr g.representative).confidence > 7/10 :=
      ⟨List.length_pos.mpr hsim, hconf⟩
    unfold processGroup
    rw [if_pos hcond]
    refine ⟨rfl, ?_, rfl, ?_⟩
    · rw [List.length_cons, patternSiblings_length _ _ _ _ _ hnn]
    · intro i f hf
      rw [List.getElem?_cons_succ]
      have h := patternSiblings_getElem
        (extractPattern ((processFile cfg mo pr g.representative).suggestedName.getD ""))
        ((processFile cfg mo pr g.representative).confidence) now
        g.similar 0 i f hnn hf
      simpa using h
  · intro hneg
    have hcond : ¬ (0 < g.similar.length ∧
        (processFile cfg mo pr g.representative).confidence > 7/10) := by
      intro ⟨hl, hc⟩
      exact hneg ⟨hc, fun hx => by simp [hx] at hl⟩
    unfold processGroup
    rw [if_neg hcond]

/-- C1 witness: a concrete one-bucket batch of three files whose
representative scores 0.8: only the representative is processFile-ed. -/
theorem processBatch_pattern_trust_dichotomy_witness :
    (processGroup balancedConfig (fun _ => none) (fun _ => ⟨"nm", 8/10⟩)
        "2025_01_01" ⟨"a", ["b", "c"]⟩).2 = ["a"] := by
  have h := processBatch_pattern_trust_dichotomy balancedConfig (fun _ => none)
    (fun _ => ⟨"nm", 8/10⟩) (fun _ => "k") "2025_01_01" ["a", "b", "c"]
    ⟨"a", ["b", "c"]⟩ (by decide) (by decide)
  refine (h.2.1 ?_ (by decide)).1
  simp [processFile, balancedConfig, tryMetadataOnly, laterStages, tryCheapModel,
    tryPremiumModel]
  norm_num
